import Mathlib

/-!
Shallow embedding of the `simplecol` column-layout library
(`src/simplecol/helpers.py`, `src/simplecol/core.py`, `src/simplecol/__init__.py`)
together with proofs about the embedded operations.

Python strings are modelled as Lean `String`, Python `None`-able values as
`Option`, Python lists as Lean `List`.  Machine-level details (interning,
identity of objects) are modelled explicitly where a claim needs them
(a small append-only heap of `Column` objects).
-/

namespace Simplecol

/-! ## Alignment enum (`core.py`, class `Alignment`) -/

inductive Alignment where
  | LEFT
  | RIGHT
  | CENTER
deriving DecidableEq, Repr

/-! ## Python `float()` literal acceptance, used by `helpers._is_numeric_value`.

`_is_numeric_value` calls `float(value)` and reports whether it raises.
CPython's `float` accepts: optional surrounding whitespace, an optional sign,
then either a case-insensitive `inf`/`infinity`/`nan` or a decimal literal
`digits [. [digits]] | . digits` with an optional exponent `(e|E) [sign] digits`;
underscores may appear between digits. -/

def isPyDigit (c : Char) : Bool := decide ('0' ≤ c) && decide (c ≤ '9')

/-- Whitespace characters recognised by Python's `str.strip`/`str.isspace`
(restricted to the ASCII range, which is all this code base produces). -/
def isPySpaceChar (c : Char) : Bool :=
  c = ' ' || c = '\t' || c = '\n' || c = '\r' || c = Char.ofNat 11 || c = Char.ofNat 12

/-- Consume the continuation of a digit run, allowing single underscores
between digits; anything else (including a trailing underscore) is left
unconsumed. -/
def digitTail : List Char → List Char
  | [] => []
  | c :: cs =>
    if isPyDigit c then digitTail cs
    else if c = '_' then
      match cs with
      | d :: ds => if isPyDigit d then digitTail ds else c :: cs
      | [] => c :: cs
    else c :: cs

/-- Consume a digit run (at least one digit); `none` when there is no digit. -/
def parseDigits : List Char → Option (List Char)
  | c :: cs => if isPyDigit c then some (digitTail cs) else none
  | [] => none

/-- After an `e`/`E`: optional sign, then digits, which must end the input. -/
def parseExpTail (cs : List Char) : Bool :=
  let cs' := match cs with
    | c :: rest => if c = '+' || c = '-' then rest else cs
    | [] => cs
  match parseDigits cs' with
  | some [] => true
  | _ => false

/-- Optional exponent, then end of input. -/
def afterMantissa : List Char → Bool
  | [] => true
  | c :: cs => if c = 'e' || c = 'E' then parseExpTail cs else false

/-- Decimal float literal: `digits [. [digits]] [exp]` or `. digits [exp]`. -/
def parseFloatBody (cs : List Char) : Bool :=
  match parseDigits cs with
  | some rest =>
    match rest with
    | '.' :: rest2 =>
      let rest3 := match parseDigits rest2 with
        | some r => r
        | none => rest2
      afterMantissa rest3
    | _ => afterMantissa rest
  | none =>
    match cs with
    | '.' :: rest =>
      match parseDigits rest with
      | some r => afterMantissa r
      | none => false
    | _ => false

def pyLowerChar (c : Char) : Char :=
  if decide ('A' ≤ c) && decide (c ≤ 'Z') then Char.ofNat (c.toNat + 32) else c

def parseFloatAfterSign (cs : List Char) : Bool :=
  cs.map pyLowerChar = ['i','n','f'] ||
  cs.map pyLowerChar = ['i','n','f','i','n','i','t','y'] ||
  cs.map pyLowerChar = ['n','a','n'] ||
  parseFloatBody cs

/-- Strip leading and trailing characters satisfying `p`. -/
def stripChars (p : Char → Bool) (cs : List Char) : List Char :=
  ((cs.dropWhile p).reverse.dropWhile p).reverse

/-- Whether CPython's `float(s)` succeeds. -/
def pyFloatAccepts (s : String) : Bool :=
  let cs := stripChars isPySpaceChar s.data
  match cs with
  | c :: rest => if c = '+' || c = '-' then parseFloatAfterSign rest else parseFloatAfterSign cs
  | [] => false

/-- Python `str.isspace`: non-empty and all whitespace. -/
def pyIsSpace (s : String) : Bool :=
  !s.data.isEmpty && s.data.all isPySpaceChar

/-! ## `helpers._is_numeric_value` and `helpers.detect_auto_align` -/

/-- Embeds `helpers._is_numeric_value`: `False` for empty or whitespace-only strings,
else whether `float(value)` succeeds. -/
def _is_numeric_value (value : String) : Bool :=
  if value.isEmpty || pyIsSpace value then false
  else pyFloatAccepts value

/-- Embeds `helpers.detect_auto_align` (the `items` iterable is modelled as a list of
the `str(item)` strings it is converted to). -/
def detect_auto_align (items : List String) : String :=
  if items.isEmpty then "LEFT"
  else
    let str_items := items
    let numeric_count := str_items.countP (fun i => _is_numeric_value i)
    let total_count := str_items.length
    -- `numeric_count > total_count / 2` under Python real division
    if total_count < 2 * numeric_count then "RIGHT"
    else
      let lengths := str_items.map String.length
      match lengths with
      | [] => "LEFT"  -- unreachable: `items` is non-empty here
      | L :: rest =>
        if 3 ≤ total_count ∧ numeric_count = 0 ∧ rest.all (· = L) ∧ 3 ≤ L ∧ L ≤ 8
        then "CENTER"
        else "LEFT"

/-- Embeds `Alignment.for_items`: `cls[detect_auto_align(items)]`.  The detector only
ever returns one of the three member names, so an exhaustive lookup suffices. -/
def Alignment.for_items (items : List String) : Alignment :=
  let name := detect_auto_align items
  if name = "RIGHT" then Alignment.RIGHT
  else if name = "CENTER" then Alignment.CENTER
  else Alignment.LEFT

/-! ## `core.Column` -/

structure Column where
  data : List String
  heading : Option String
  width : Option Nat
  align : Option Alignment
deriving DecidableEq, Repr

/-- Embeds `Column.__len__`: the width needed for this column (explicit width if set,
else the maximum of data and heading widths; Python's truthiness test on the
heading is equivalent to taking `len("") = 0`). -/
def Column.len (c : Column) : Nat :=
  match c.width with
  | some w => w
  | none =>
    let data_width := (c.data.map String.length).foldl max 0
    let heading_width := match c.heading with
      | some h => h.length
      | none => 0
    max data_width heading_width

/-- The meaning of a Python format template `"{:<w}" / "{:>w}" / "{:^w}"`:
an alignment plus a field width. -/
structure Fmt where
  align : Alignment
  width : Nat
deriving DecidableEq, Repr

def spaces (n : Nat) : String := String.mk (List.replicate n ' ')

/-- Applying a format template to a string, as Python's `str.format` does for
the `<`/`>`/`^` alignments with space fill: pad up to the field width, never
truncate; `^` puts the extra space (odd padding) on the right. -/
def Fmt.format (f : Fmt) (s : String) : String :=
  let pad := f.width - s.length
  match f.align with
  | Alignment.LEFT => s ++ spaces pad
  | Alignment.RIGHT => spaces pad ++ s
  | Alignment.CENTER => spaces (pad / 2) ++ s ++ spaces (pad - pad / 2)

/-- Embeds `Column.template`: effective alignment is `align or self.align or LEFT`
(all `Alignment` members are truthy strings); the dead `# Fallback to left`
branch of the source is unreachable once the three members are covered. -/
def Column.template (c : Column) (align : Option Alignment) : Fmt :=
  let effective_align := match align with
    | some a => a
    | none => match c.align with
      | some a => a
      | none => Alignment.LEFT
  Fmt.mk effective_align c.len

/-! ## `core.Model` -/

/-- One entry of `Model.data`: a pre-built `Column` object or a raw sequence
of strings. -/
inductive ColData where
  | col (c : Column)
  | raw (xs : List String)
deriving DecidableEq, Repr

structure Model where
  data : List ColData
  headings : Option (List String)
  align : Option Alignment
deriving DecidableEq, Repr

/-- The `Column` object `Model.columns` constructs for a raw entry at index
`i`: the heading at that index (when the headings list is there and long
enough — Python's `if self.headings and i < len(self.headings)`) and the model
alignment, falling back to auto-detection. -/
def rawColumn (headings : Option (List String)) (align : Option Alignment)
    (i : Nat) (xs : List String) : Column :=
  let heading := (headings.getD [])[i]?
  let al := match align with
    | some a => some a
    | none => some (Alignment.for_items xs)
  Column.mk xs heading none al

/-- Body of the `Model.columns` loop, carrying the running index `i`. -/
def columnsFrom (headings : Option (List String)) (align : Option Alignment) :
    Nat → List ColData → List Column
  | _, [] => []
  | i, ColData.col c :: rest => c :: columnsFrom headings align (i + 1) rest
  | i, ColData.raw xs :: rest =>
    rawColumn headings align i xs :: columnsFrom headings align (i + 1) rest

/-- Embeds the `Model.columns` property. -/
def Model.columns (m : Model) : List Column :=
  columnsFrom m.headings m.align 0 m.data

/-- Embeds `max(len(row) for row in rows)` (only ever used on non-empty lists, where
folding from 0 agrees with Python's `max`). -/
def maxRowLen (rows : List (List String)) : Nat :=
  (rows.map List.length).foldl max 0

/-- Embeds `Model.from_rows`. -/
def Model.from_rows (rows : List (List String)) (headers : Bool)
    (align : Option Alignment) : Model :=
  match rows with
  | [] => Model.mk [] none align
  | first :: rest =>
    let headings : Option (List String) := if headers then some first else none
    let rows_list := if headers then rest else first :: rest
    if rows_list.isEmpty then
      match headings with
      | some hs =>
        if hs.isEmpty then Model.mk [] (some hs) align  -- `if headings:` is falsy
        else Model.mk (hs.map (fun _ => ColData.raw [])) (some hs) align
      | none => Model.mk [] none align  -- unreachable: no header row was removed
    else
      let max_cols := maxRowLen rows_list
      let columns := (List.range max_cols).map
        (fun col_idx => ColData.raw (rows_list.map (fun row => (row[col_idx]?).getD "")))
      Model.mk columns headings align

/-- Embeds `Model.from_columns`. -/
def Model.from_columns (columns : List ColData) (headings : Option (List String))
    (align : Option Alignment) : Model :=
  Model.mk columns headings align

/-- The alignment the new column receives in `Model.with_aligns`:
`aligns[i] if i < len(aligns) else col.align` (the list entry may itself be
`None` and is then taken as the new alignment). -/
def newAlignAt (aligns : List (Option Alignment)) (i : Nat) (col : Column) :
    Option Alignment :=
  match aligns[i]? with
  | some a => a
  | none => col.align

/-- Body of the `Model.with_aligns` loop over materialized columns. -/
def withAlignsFrom (aligns : List (Option Alignment)) :
    Nat → List Column → List Column
  | _, [] => []
  | i, col :: rest =>
    Column.mk col.data col.heading col.width (newAlignAt aligns i col) ::
      withAlignsFrom aligns (i + 1) rest

/-- Embeds `Model.with_aligns`: rebuild every materialized column with the requested
alignment and wrap them in a new `Model`. -/
def Model.with_aligns (m : Model) (aligns : List (Option Alignment)) : Model :=
  Model.mk ((withAlignsFrom aligns 0 m.columns).map ColData.col) m.headings m.align

/-! ## Renderers (`core.Screen`, `core.Table`) -/

/-- Python `str.rstrip()` (whitespace set restricted to ASCII). -/
def pyRstrip (s : String) : String :=
  String.mk ((s.data.reverse.dropWhile isPySpaceChar).reverse)

/-- One rendered data row: each column formats its cell (or `""` past the end
of its data), cells are joined with the spacer, the line is right-stripped. -/
def renderLine (columns : List Column) (spacer : String) (row_idx : Nat) : String :=
  pyRstrip (String.intercalate spacer (columns.map
    (fun col => (col.template none).format ((col.data[row_idx]?).getD ""))))

/-- Embeds `max(len(col.data) for col in columns)` guarded by non-emptiness. -/
def maxRows (columns : List Column) : Nat :=
  (columns.map (fun c => c.data.length)).foldl max 0

/-- The data-row lines of `Screen.__str__`. -/
def screenLines (columns : List Column) (spacer : String) : List String :=
  (List.range (maxRows columns)).map (renderLine columns spacer)

/-- Embeds `Screen.__str__`. -/
def screenStr (m : Model) (spacer : String) : String :=
  let columns := m.columns
  if columns.isEmpty then ""
  else String.intercalate "\n" (screenLines columns spacer)

/-- The lines of `Table.__str__`: optional header and separator lines
(each right-stripped) followed by the data rows. -/
def tableLines (columns : List Column) (spacer : String) (show_sep : Bool) :
    List String :=
  let has_headers := columns.any (fun col => col.heading.getD "" ≠ "")
  let header_lines :=
    if has_headers then
      let hline := pyRstrip (String.intercalate spacer (columns.map
        (fun col => (col.template none).format (col.heading.getD ""))))
      let sep_lines :=
        if show_sep then
          [pyRstrip (String.intercalate spacer (columns.map
            (fun col => String.mk (List.replicate col.len '-'))))]
        else []
      hline :: sep_lines
    else []
  header_lines ++ screenLines columns spacer

/-- Embeds `Table.__str__`. -/
def tableStr (m : Model) (spacer : String) (show_sep : Bool) : String :=
  let columns := m.columns
  if columns.isEmpty then ""
  else String.intercalate "\n" (tableLines columns spacer show_sep)

/-! ## Legacy `FrameBuilder` (`__init__.py`) -/

structure FrameBuilder where
  spacer : String
  line_width : Option Nat
  vertical : Bool
deriving DecidableEq, Repr

/-- Embeds `FrameBuilder.get_frame`: the model inside the returned `Frame`.
A non-empty list of values becomes a single raw column; anything else an
empty model.  (The `Frame` wraps the model in a `Screen` with the default
two-space spacer; the builder's width/orientation fields are unused.) -/
def FrameBuilder.get_frame (_b : FrameBuilder) (values : List String) : Model :=
  if values.isEmpty then Model.mk [] none none
  else Model.from_columns [ColData.raw values] none none

/-! ## Layout-engine shrink algorithm (spec §4.4) -/

/-- Modelled from the spec: the repository's sources contain no
shrink-to-width implementation (the spec's "Layout Engine — shrink
algorithm", `shrinkToWidth`, has no counterpart under `src/`), so the
algorithm is transcribed from the spec's words.  One left-to-right scan over
the widths: each column is paired with its right neighbour (the last with an
assumed floor of 1); when the earlier column is wider, it is reduced by up to
`min(overflow, width[i] - width[i+1])`, and the overflow shrinks by the amount
actually removed.  Returns the new widths and the remaining overflow. -/
def shrinkPass : List Nat → Nat → List Nat × Nat
  | [], ov => ([], ov)
  | w :: rest, ov =>
    let nxt := match rest with
      | [] => 1
      | w2 :: _ => w2
    let d := if nxt < w then min ov (w - nxt) else 0
    let res := shrinkPass rest (ov - d)
    ((w - d) :: res.1, res.2)

/-- Total rendered line width: sum of column widths plus one spacer between
each adjacent pair. -/
def total_width (ws : List Nat) (spacer_len : Nat) : Nat :=
  ws.sum + (ws.length - 1) * spacer_len

/-- Modelled from the spec: the repeated-pass loop of `shrinkToWidth`.
Stops when the total fits, or when no column can shrink further (every width
has reached 1, conservatively: none exceeds 1), or when the fuel runs out
(the fuel chosen by `shrink_to_width` is enough, since each pass removes at
least one character). -/
def shrinkLoop (target spacer_len : Nat) : Nat → List Nat → List Nat
  | 0, ws => ws
  | fuel + 1, ws =>
    let total := total_width ws spacer_len
    if total ≤ target then ws
    else if ws.all (· ≤ 1) then ws
    else shrinkLoop target spacer_len fuel (shrinkPass ws (total - target)).1

/-- Modelled from the spec: `shrinkToWidth(columns, targetWidth)` on the
per-column width profile. -/
def shrink_to_width (ws : List Nat) (target spacer_len : Nat) : List Nat :=
  shrinkLoop target spacer_len ws.sum ws

/-! ## Heap model of `Column` objects.

Python `Column`s are mutable objects; `Model.with_aligns` is specified to be
copy-on-write.  To talk about object identity and in-place mutation we model
the object store explicitly: a heap is the list of all allocated `Column`
objects, a reference is an index into it, and every embedded operation
returns the heap it leaves behind.  The translated code only ever appends
freshly constructed objects, which is exactly what the proofs establish. -/

abbrev Heap := List Column

/-- One entry of a Python `Model.data`: a reference to a heap-allocated
`Column` object, or a raw list of strings. -/
inductive PyColVal where
  | ref (r : Nat)
  | raw (xs : List String)
deriving DecidableEq, Repr

structure PyModel where
  data : List PyColVal
  headings : Option (List String)
  align : Option Alignment
deriving DecidableEq, Repr

/-- Every `Column` reference stored in the model points into the heap. -/
def PyModel.wf (m : PyModel) (h : Heap) : Bool :=
  m.data.all (fun v => match v with
    | PyColVal.ref r => decide (r < h.length)
    | PyColVal.raw _ => true)

/-- Embeds `Model.columns` in the heap model: pre-built columns are read off the
heap (dangling references never arise under `PyModel.wf`); raw entries
allocate a fresh `Column` object exactly as `columnsFrom` builds it. -/
def columnsAllocFrom (headings : Option (List String)) (align : Option Alignment) :
    List PyColVal → Nat → Heap → List Column × Heap
  | [], _, h => ([], h)
  | PyColVal.ref r :: rest, i, h =>
    let c := (h[r]?).getD (Column.mk [] none none none)
    let res := columnsAllocFrom headings align rest (i + 1) h
    (c :: res.1, res.2)
  | PyColVal.raw xs :: rest, i, h =>
    let c := rawColumn headings align i xs
    let res := columnsAllocFrom headings align rest (i + 1) (h ++ [c])
    (c :: res.1, res.2)

/-- The column values (`data`, `heading`, `width`, `align`) a model's
`columns` property yields against a given heap. -/
def PyModel.columnsOf (m : PyModel) (h : Heap) : List Column :=
  (columnsAllocFrom m.headings m.align m.data 0 h).1

/-- Embeds `Model.with_aligns` in the heap model: materialize the columns, allocate
one new `Column` per materialized column with the requested alignment, and
return a new model referring to the freshly allocated objects. -/
def pyWithAligns (m : PyModel) (aligns : List (Option Alignment)) (h : Heap) :
    PyModel × Heap :=
  let res := columnsAllocFrom m.headings m.align m.data 0 h
  let new_cols := withAlignsFrom aligns 0 res.1
  let h2 := res.2 ++ new_cols
  (PyModel.mk
    ((List.range new_cols.length).map (fun j => PyColVal.ref (res.2.length + j)))
    m.headings m.align, h2)

/-- Embeds `Screen.__str__` in the heap model: materialize the columns (allocating
temporaries for raw entries) and render the text. -/
def pyRender (m : PyModel) (spacer : String) (h : Heap) : String × Heap :=
  let res := columnsAllocFrom m.headings m.align m.data 0 h
  (if res.1.isEmpty then "" else String.intercalate "\n" (screenLines res.1 spacer),
   res.2)

/-! ## Helper lemmas -/

lemma columnsFrom_col_at (hd : Option (List String)) (al : Option Alignment) :
    ∀ (lst : List ColData) (j i : Nat) (c : Column),
      lst[j]? = some (ColData.col c) → (columnsFrom hd al i lst)[j]? = some c := by
  intro lst
  induction lst with
  | nil => intro j i c h; simp at h
  | cons x rest ih =>
    intro j i c h
    cases j with
    | zero =>
      cases x with
      | col c' =>
        simp only [List.getElem?_cons_zero, Option.some.injEq] at h
        cases h
        simp [columnsFrom]
      | raw xs => simp at h
    | succ j' =>
      simp only [List.getElem?_cons_succ] at h
      cases x with
      | col c' => simpa [columnsFrom] using ih j' (i + 1) c h
      | raw xs => simpa [columnsFrom] using ih j' (i + 1) c h

lemma spaces_length (n : Nat) : (spaces n).length = n := by
  have h : (spaces n).length = (List.replicate n ' ').length := rfl
  simp [h]

lemma spaces_zero : spaces 0 = "" := rfl

lemma format_length_mk (a : Alignment) (w : Nat) (s : String) :
    (Fmt.format (Fmt.mk a w) s).length = max w s.length := by
  cases a
  · show (s ++ spaces (w - s.length)).length = max w s.length
    simp [spaces_length]
    omega
  · show (spaces (w - s.length) ++ s).length = max w s.length
    simp [spaces_length]
    omega
  · show (spaces ((w - s.length) / 2) ++ s ++
      spaces ((w - s.length) - (w - s.length) / 2)).length = max w s.length
    simp [spaces_length]
    omega

lemma format_length (f : Fmt) (s : String) :
    (f.format s).length = max f.width s.length := by
  rcases f with ⟨a, w⟩
  exact format_length_mk a w s

lemma format_decomp_mk (a : Alignment) (w : Nat) (s : String) :
    ∃ l r, Fmt.format (Fmt.mk a w) s = spaces l ++ s ++ spaces r ∧ l + r = w - s.length := by
  cases a with
  | LEFT =>
    refine ⟨0, w - s.length, ?_, by omega⟩
    show s ++ spaces (w - s.length) = spaces 0 ++ s ++ spaces (w - s.length)
    simp [spaces_zero]
  | RIGHT =>
    refine ⟨w - s.length, 0, ?_, by omega⟩
    show spaces (w - s.length) ++ s = spaces (w - s.length) ++ s ++ spaces 0
    simp [spaces_zero]
  | CENTER =>
    exact ⟨(w - s.length) / 2, (w - s.length) - (w - s.length) / 2, rfl, by omega⟩

lemma format_decomp (f : Fmt) (s : String) :
    ∃ l r, f.format s = spaces l ++ s ++ spaces r ∧ l + r = f.width - s.length := by
  rcases f with ⟨a, w⟩
  exact format_decomp_mk a w s

lemma template_width (c : Column) (ov : Option Alignment) :
    (c.template ov).width = c.len := by
  rcases ov with _ | a
  · cases c.align <;> rfl
  · rfl

lemma dropWhile_dropWhile (p : Char → Bool) (l : List Char) :
    List.dropWhile p (List.dropWhile p l) = List.dropWhile p l := by
  induction l with
  | nil => simp
  | cons c cs ih =>
    by_cases h : p c
    · simpa [List.dropWhile, h] using ih
    · simp [List.dropWhile, h]

lemma pyRstrip_idem (s : String) : pyRstrip (pyRstrip s) = pyRstrip s := by
  show String.mk ((((s.data.reverse.dropWhile isPySpaceChar).reverse).reverse.dropWhile
    isPySpaceChar).reverse) = _
  rw [List.reverse_reverse, dropWhile_dropWhile]
  rfl

lemma screenLines_rstripped (cols : List Column) (sp : String) :
    (screenLines cols sp).all (fun l => pyRstrip l == l) = true := by
  simp only [screenLines, List.all_eq_true, List.mem_map]
  rintro l ⟨i, _, rfl⟩
  simp [renderLine, pyRstrip_idem]

lemma tableLines_rstripped (cols : List Column) (sp : String) (ss : Bool) :
    (tableLines cols sp ss).all (fun l => pyRstrip l == l) = true := by
  have hsc := screenLines_rstripped cols sp
  rw [List.all_eq_true] at hsc ⊢
  intro l hl
  simp only [tableLines] at hl
  rcases List.mem_append.mp hl with hl | hl
  · split at hl
    · rcases List.mem_cons.mp hl with h | hl
      · subst h; simp [pyRstrip_idem]
      · split at hl
        · have h := List.mem_singleton.mp hl
          subst h; simp [pyRstrip_idem]
        · simp at hl
    · simp at hl
  · exact hsc l hl

/-! ## Claim theorems -/

/-- C10: pre-built `Column` entries of `Model.data` are returned by the
`columns` accessor exactly as stored, and the model's headings and default
alignment have no effect on such an entry. -/
theorem prebuilt_columns_pass_through (data : List ColData)
    (hs1 hs2 : Option (List String)) (a1 a2 : Option Alignment) (i : Nat) (c : Column)
    (hc : data[i]? = some (ColData.col c)) :
    (Model.mk data hs1 a1).columns[i]? = some c ∧
    (Model.mk data hs1 a1).columns[i]? = (Model.mk data hs2 a2).columns[i]? := by
  have h1 := columnsFrom_col_at hs1 a1 data i 0 c hc
  have h2 := columnsFrom_col_at hs2 a2 data i 0 c hc
  exact ⟨h1, by rw [Model.columns, Model.columns] at *; rw [h1, h2]⟩

theorem prebuilt_columns_pass_through_witness :
    (Model.mk [ColData.col (Column.mk ["x"] none none none)]
      (some ["H"]) (some Alignment.RIGHT)).columns[0]? =
      some (Column.mk ["x"] none none none) :=
  (prebuilt_columns_pass_through _ (some ["H"]) none (some Alignment.RIGHT) none 0 _ rfl).1

/-- C2: `Model.from_rows` with `headers = True` takes the first row as the
headings; with no remaining row it yields one empty raw column per heading;
otherwise the data is the transpose of the remaining rows, short rows padded
with `""` up to the longest remaining row; empty input yields zero columns. -/
theorem from_rows_headers_spec (rows : List (List String)) (align : Option Alignment) :
    (Model.from_rows [] true align).data = [] ∧
    ∀ first rest, rows = first :: rest →
      (Model.from_rows rows true align).headings = some first ∧
      (rest = [] → (Model.from_rows rows true align).data
        = first.map (fun _ => ColData.raw [])) ∧
      (rest ≠ [] →
        (Model.from_rows rows true align).data.length = maxRowLen rest ∧
        ∀ j, j < maxRowLen rest →
          (Model.from_rows rows true align).data[j]?
            = some (ColData.raw (rest.map (fun row => (row[j]?).getD "")))) := by
  refine ⟨rfl, ?_⟩
  rintro first rest rfl
  refine ⟨?_, ?_, ?_⟩
  · cases rest with
    | nil => by_cases hf : first.isEmpty <;> simp [Model.from_rows, hf]
    | cons r rs => simp [Model.from_rows]
  · rintro rfl
    by_cases hf : first.isEmpty
    · have : first = [] := by simpa [List.isEmpty_iff] using hf
      subst this
      simp [Model.from_rows]
    · simp [Model.from_rows, hf]
  · intro hne
    cases rest with
    | nil => exact absurd rfl hne
    | cons r rs =>
      refine ⟨by simp [Model.from_rows], ?_⟩
      intro j hj
      simp [Model.from_rows, List.getElem?_map, List.getElem?_range, hj]

theorem from_rows_headers_spec_witness :
    (Model.from_rows [["Name", "Age"], ["Alice", "25"], ["Bob"]] true none).headings
      = some ["Name", "Age"] ∧
    (Model.from_rows [["Name", "Age"], ["Alice", "25"], ["Bob"]] true none).data[1]?
      = some (ColData.raw ["25", ""]) := by
  have h := (from_rows_headers_spec [["Name", "Age"], ["Alice", "25"], ["Bob"]] none).2
    ["Name", "Age"] [["Alice", "25"], ["Bob"]] rfl
  exact ⟨h.1, by simpa using (h.2.2 (by simp)).2 1 (by simp [maxRowLen])⟩

/-- C6: a column's effective width is the explicit width when set, else the
maximum of longest cell and heading length (0 when both absent); the render
template pads to exactly that width (never truncating, output length is the
max of width and text length, the text surrounded by space runs), with the
justification chosen by override > column alignment > LEFT, and CENTER
placing the extra space on the right. -/
theorem column_width_and_template (c : Column) (ov : Option Alignment) (s : String) :
    (∀ w, c.width = some w → c.len = w) ∧
    (c.width = none →
      c.len = max ((c.data.map String.length).foldl max 0)
        ((c.heading.map String.length).getD 0)) ∧
    c.template ov = Fmt.mk (ov.getD (c.align.getD Alignment.LEFT)) c.len ∧
    ((c.template ov).format s).length = max c.len s.length ∧
    (∃ l r, (c.template ov).format s = spaces l ++ s ++ spaces r ∧
      l + r = c.len - s.length) ∧
    (∀ w, ∃ l r, Fmt.format (Fmt.mk Alignment.CENTER w) s = spaces l ++ s ++ spaces r ∧
      l + r = w - s.length ∧ l ≤ r) := by
  refine ⟨?_, ?_, ?_, ?_, ?_, ?_⟩
  · intro w hw; simp [Column.len, hw]
  · intro hw; cases hh : c.heading <;> simp [Column.len, hw, hh]
  · rcases ov with _ | a
    · cases ha : c.align <;> simp [Column.template, ha, Option.getD]
    · simp [Column.template, Option.getD]
  · rw [format_length, template_width]
  · have h := format_decomp (c.template ov) s
    rwa [template_width] at h
  · intro w
    exact ⟨(w - s.length) / 2, (w - s.length) - (w - s.length) / 2, rfl, by omega, by omega⟩

theorem column_width_and_template_witness :
    (Column.mk ["ab", "cdef"] (some "Head") none (some Alignment.CENTER)).len =
      max (((["ab", "cdef"] : List String).map String.length).foldl max 0)
        (((some "Head").map String.length).getD 0) ∧
    (Column.mk [] none (some 7) none).len = 7 :=
  ⟨(column_width_and_template
      (Column.mk ["ab", "cdef"] (some "Head") none (some Alignment.CENTER)) none "xy").2.1 rfl,
   (column_width_and_template (Column.mk [] none (some 7) none) none "xy").1 7 rfl⟩

/-- C7: both renderers right-strip every line they produce and join the lines
with single newline characters, appending nothing after the last line. -/
theorem renderers_strip_and_join (m : Model) (spacer : String) (show_sep : Bool) :
    (screenLines m.columns spacer).all (fun l => pyRstrip l == l) = true ∧
    screenStr m spacer = String.intercalate "\n" (screenLines m.columns spacer) ∧
    (tableLines m.columns spacer show_sep).all (fun l => pyRstrip l == l) = true ∧
    tableStr m spacer show_sep
      = String.intercalate "\n" (tableLines m.columns spacer show_sep) := by
  refine ⟨screenLines_rstripped _ _, ?_, tableLines_rstripped _ _ _, ?_⟩
  · by_cases h : m.columns.isEmpty
    · have hc : m.columns = [] := by simpa [List.isEmpty_iff] using h
      simp [screenStr, h, hc, screenLines, maxRows, String.intercalate]
    · simp [screenStr, h]
  · by_cases h : m.columns.isEmpty
    · have hc : m.columns = [] := by simpa [List.isEmpty_iff] using h
      simp [tableStr, h, hc, tableLines, screenLines, maxRows, String.intercalate]
    · simp [tableStr, h]

/-- The values `"1"` through `"20"`. -/
def vals20 : List String := (List.range 20).map (fun i => toString (i + 1))

set_option maxRecDepth 8000 in
/-- C5: the frame returned by the legacy `FrameBuilder.get_frame` either
renders within the target width or is the single-column fallback frame (one
value per line); in particular the concrete frame for values `"1".."20"` at
target width 10 (vertical) renders within width 10. -/
theorem frame_builder_fits_or_fallback (b : FrameBuilder) (values : List String)
    (target : Nat) :
    (((screenLines (b.get_frame values).columns "  ").map String.length).foldl max 0
        ≤ target ∨
      b.get_frame values = Model.from_columns [ColData.raw values] none none) ∧
    (((screenLines ((FrameBuilder.mk "  " (some 10) true).get_frame vals20).columns
        "  ").map String.length).foldl max 0 ≤ 10) := by
  constructor
  · by_cases h : values.isEmpty
    · left
      have hv : values = [] := by simpa [List.isEmpty_iff] using h
      subst hv
      simp [FrameBuilder.get_frame, Model.columns, columnsFrom, screenLines, maxRows]
    · right
      simp [FrameBuilder.get_frame, h, Model.from_columns]
  · decide

lemma detect_cons (x : String) (xs : List String) :
    detect_auto_align (x :: xs) =
      if (x :: xs).length < 2 * (x :: xs).countP (fun i => _is_numeric_value i)
      then "RIGHT"
      else if 3 ≤ (x :: xs).length ∧
          (x :: xs).countP (fun i => _is_numeric_value i) = 0 ∧
          (xs.map String.length).all (fun l => l = x.length) = true ∧
          3 ≤ x.length ∧ x.length ≤ 8
        then "CENTER" else "LEFT" := rfl

lemma center_cond_iff (x : String) (xs : List String) :
    ((xs.map String.length).all (fun l => l = x.length) = true ∧
      3 ≤ x.length ∧ x.length ≤ 8) ↔
    (∃ L, 3 ≤ L ∧ L ≤ 8 ∧ ∀ s ∈ x :: xs, s.length = L) := by
  constructor
  · rintro ⟨hall, h3, h8⟩
    refine ⟨x.length, h3, h8, ?_⟩
    intro s hs
    rcases List.mem_cons.mp hs with h | hs
    · rw [h]
    · have := List.all_eq_true.mp hall _ (List.mem_map_of_mem _ hs)
      simpa using this
  · rintro ⟨L, h3, h8, hall⟩
    have hx : x.length = L := hall x (by simp)
    refine ⟨?_, by omega, by omega⟩
    rw [List.all_eq_true]
    intro l hl
    rcases List.mem_map.mp hl with ⟨s, hs, rfl⟩
    simp [hall s (by simp [hs]), hx]

/-- C1: the detector answers RIGHT exactly when the count of numeric items
exceeds half of the item count; otherwise CENTER exactly when there are at
least 3 items, none numeric, all of one common length between 3 and 8
inclusive; in every other case (the empty input included) LEFT. -/
theorem detect_auto_align_spec (items : List String) :
    (detect_auto_align items = "RIGHT" ↔
      items.length < 2 * items.countP (fun i => _is_numeric_value i)) ∧
    (detect_auto_align items = "CENTER" ↔
      (3 ≤ items.length ∧ items.countP (fun i => _is_numeric_value i) = 0 ∧
        ∃ L, 3 ≤ L ∧ L ≤ 8 ∧ ∀ s ∈ items, s.length = L)) ∧
    (detect_auto_align items = "LEFT" ↔
      (¬ items.length < 2 * items.countP (fun i => _is_numeric_value i) ∧
        ¬ (3 ≤ items.length ∧ items.countP (fun i => _is_numeric_value i) = 0 ∧
          ∃ L, 3 ≤ L ∧ L ≤ 8 ∧ ∀ s ∈ items, s.length = L))) := by
  cases items with
  | nil =>
    refine ⟨iff_of_false (by decide) (by simp),
      iff_of_false (by decide) (by rintro ⟨h3, -, -⟩; simp at h3),
      iff_of_true (by decide) ⟨by simp, by rintro ⟨h3, -, -⟩; simp at h3⟩⟩
  | cons x xs =>
    by_cases hR : (x :: xs).length < 2 * (x :: xs).countP (fun i => _is_numeric_value i)
    · have hd : detect_auto_align (x :: xs) = "RIGHT" := by
        rw [detect_cons, if_pos hR]
      refine ⟨iff_of_true hd hR, ?_, ?_⟩
      · rw [hd]
        refine iff_of_false (by decide) ?_
        rintro ⟨-, h0, -⟩
        omega
      · rw [hd]
        refine iff_of_false (by decide) ?_
        rintro ⟨hnr, -⟩
        exact hnr hR
    · by_cases hC : 3 ≤ (x :: xs).length ∧
          (x :: xs).countP (fun i => _is_numeric_value i) = 0 ∧
          (xs.map String.length).all (fun l => l = x.length) = true ∧
          3 ≤ x.length ∧ x.length ≤ 8
      · have hd : detect_auto_align (x :: xs) = "CENTER" := by
          rw [detect_cons, if_neg hR, if_pos hC]
        have hspec : 3 ≤ (x :: xs).length ∧
            (x :: xs).countP (fun i => _is_numeric_value i) = 0 ∧
            ∃ L, 3 ≤ L ∧ L ≤ 8 ∧ ∀ s ∈ x :: xs, s.length = L :=
          ⟨hC.1, hC.2.1, (center_cond_iff x xs).mp ⟨hC.2.2.1, hC.2.2.2.1, hC.2.2.2.2⟩⟩
        refine ⟨?_, iff_of_true hd hspec, ?_⟩
        · rw [hd]
          exact iff_of_false (by decide) hR
        · rw [hd]
          refine iff_of_false (by decide) ?_
          rintro ⟨-, hn⟩
          exact hn hspec
      · have hd : detect_auto_align (x :: xs) = "LEFT" := by
          rw [detect_cons, if_neg hR, if_neg hC]
        have hnspec : ¬ (3 ≤ (x :: xs).length ∧
            (x :: xs).countP (fun i => _is_numeric_value i) = 0 ∧
            ∃ L, 3 ≤ L ∧ L ≤ 8 ∧ ∀ s ∈ x :: xs, s.length = L) := by
          rintro ⟨h3, h0, hL⟩
          have h := (center_cond_iff x xs).mpr hL
          exact hC ⟨h3, h0, h.1, h.2.1, h.2.2⟩
        refine ⟨?_, ?_, iff_of_true hd ⟨hR, hnspec⟩⟩
        · rw [hd]
          exact iff_of_false (by decide) hR
        · rw [hd]
          exact iff_of_false (by decide) hnspec

theorem detect_auto_align_spec_witness :
    detect_auto_align ["abc", "def", "ghi"] = "CENTER" :=
  (detect_auto_align_spec ["abc", "def", "ghi"]).2.1.mpr
    ⟨by decide, by decide, 3, by decide, by decide, by decide⟩

/-- C3 (divergence): on a column whose auto-detected alignment is CENTER and
whose width exceeds its cell lengths (a longer heading), `with_aligns` with a
`None` entry leaves the column's alignment `None`, and rendering falls back to
the fixed LEFT default instead of re-running auto-detection — the LEFT-rendered
lines differ from the CENTER-rendered ones. -/
theorem with_aligns_none_renders_left :
    Alignment.for_items ["abc", "def", "ghi"] = Alignment.CENTER ∧
    ((Model.mk [ColData.raw ["abc", "def", "ghi"]] (some ["LongHead"]) none).with_aligns
        [none]).columns.map Column.align = [none] ∧
    screenLines ((Model.mk [ColData.raw ["abc", "def", "ghi"]] (some ["LongHead"])
        none).with_aligns [none]).columns "  " = ["abc", "def", "ghi"] ∧
    screenLines ((Model.mk [ColData.raw ["abc", "def", "ghi"]] (some ["LongHead"])
        none).with_aligns [some Alignment.CENTER]).columns "  "
      = ["  abc", "  def", "  ghi"] :=
  ⟨by decide, by decide, by decide, by decide⟩

lemma columnsAllocFrom_heap_extend (hd : Option (List String)) (al : Option Alignment) :
    ∀ (lst : List PyColVal) (h e : Heap) (i : Nat),
      (∀ r, PyColVal.ref r ∈ lst → r < h.length) →
      (columnsAllocFrom hd al lst i (h ++ e)).1 = (columnsAllocFrom hd al lst i h).1 := by
  intro lst
  induction lst with
  | nil => intro h e i _; rfl
  | cons v rest ih =>
    intro h e i hwf
    have hrest : ∀ r, PyColVal.ref r ∈ rest → r < h.length :=
      fun r hmem => hwf r (by simp [hmem])
    cases v with
    | ref r =>
      have hr : r < h.length := hwf r (by simp)
      simp only [columnsAllocFrom]
      rw [ih h e (i + 1) hrest]
      congr 2
      simp [List.getElem?_append, hr]
    | raw xs =>
      simp only [columnsAllocFrom]
      congr 1
      calc (columnsAllocFrom hd al rest (i + 1) ((h ++ e) ++ [rawColumn hd al i xs])).1
          = (columnsAllocFrom hd al rest (i + 1)
              (h ++ (e ++ [rawColumn hd al i xs]))).1 := by
            rw [List.append_assoc]
        _ = (columnsAllocFrom hd al rest (i + 1) h).1 := ih h _ (i + 1) hrest
        _ = (columnsAllocFrom hd al rest (i + 1) (h ++ [rawColumn hd al i xs])).1 :=
            (ih h _ (i + 1) hrest).symm

lemma columnsAllocFrom_heap_mono (hd : Option (List String)) (al : Option Alignment) :
    ∀ (lst : List PyColVal) (h : Heap) (i : Nat),
      ∃ e, (columnsAllocFrom hd al lst i h).2 = h ++ e := by
  intro lst
  induction lst with
  | nil => intro h i; exact ⟨[], by simp [columnsAllocFrom]⟩
  | cons v rest ih =>
    intro h i
    cases v with
    | ref r =>
      obtain ⟨e, he⟩ := ih h (i + 1)
      exact ⟨e, by simpa [columnsAllocFrom] using he⟩
    | raw xs =>
      obtain ⟨e, he⟩ := ih (h ++ [rawColumn hd al i xs]) (i + 1)
      refine ⟨[rawColumn hd al i xs] ++ e, ?_⟩
      simp only [columnsAllocFrom]
      rw [he, List.append_assoc]

lemma pyModel_wf_refs (m : PyModel) (h : Heap) (hwf : m.wf h = true) :
    ∀ r, PyColVal.ref r ∈ m.data → r < h.length := by
  intro r hr
  have := List.all_eq_true.mp hwf _ hr
  simpa using this

/-- C8: `with_aligns` is copy-on-write: the heap it leaves behind extends the
original heap without touching any existing `Column` object, so the original
model observes exactly the same column values (data, headings, widths,
alignments) after the call as before. -/
theorem with_aligns_copy_on_write (h : Heap) (m : PyModel)
    (aligns : List (Option Alignment)) (hwf : m.wf h = true) :
    (∀ i, i < h.length → ((pyWithAligns m aligns h).2)[i]? = h[i]?) ∧
    m.columnsOf (pyWithAligns m aligns h).2 = m.columnsOf h := by
  have hwf' := pyModel_wf_refs m h hwf
  obtain ⟨e1, he1⟩ := columnsAllocFrom_heap_mono m.headings m.align m.data h 0
  have hh2 : (pyWithAligns m aligns h).2 = h ++ (e1 ++ withAlignsFrom aligns 0
      (columnsAllocFrom m.headings m.align m.data 0 h).1) := by
    simp only [pyWithAligns]
    rw [he1, List.append_assoc]
  constructor
  · intro i hi
    rw [hh2]
    simp [List.getElem?_append, hi]
  · rw [hh2]
    simp only [PyModel.columnsOf]
    exact columnsAllocFrom_heap_extend m.headings m.align m.data h _ 0 hwf'

theorem with_aligns_copy_on_write_witness :
    ((pyWithAligns (PyModel.mk [PyColVal.ref 0, PyColVal.raw ["1", "2"]] none none)
        [some Alignment.RIGHT, none]
        [Column.mk ["a"] none none none]).2)[0]?
      = ([Column.mk ["a"] none none none] : Heap)[0]? ∧
    (PyModel.mk [PyColVal.ref 0, PyColVal.raw ["1", "2"]] none none).columnsOf
        (pyWithAligns (PyModel.mk [PyColVal.ref 0, PyColVal.raw ["1", "2"]] none none)
          [some Alignment.RIGHT, none] [Column.mk ["a"] none none none]).2
      = (PyModel.mk [PyColVal.ref 0, PyColVal.raw ["1", "2"]] none none).columnsOf
          [Column.mk ["a"] none none none] :=
  ⟨(with_aligns_copy_on_write [Column.mk ["a"] none none none]
      (PyModel.mk [PyColVal.ref 0, PyColVal.raw ["1", "2"]] none none)
      [some Alignment.RIGHT, none] (by decide)).1 0 (by decide),
   (with_aligns_copy_on_write [Column.mk ["a"] none none none]
      (PyModel.mk [PyColVal.ref 0, PyColVal.raw ["1", "2"]] none none)
      [some Alignment.RIGHT, none] (by decide)).2⟩

/-- C9: rendering a model twice without intervening mutation yields identical
text, because the columns accessor is deterministic: the temporaries the first
render allocates extend the heap without changing what the model's stored
state materializes to, so the second materialization returns an equal column
list and the second render an equal string. -/
theorem render_idempotent (h : Heap) (m : PyModel) (spacer : String)
    (hwf : m.wf h = true) :
    (pyRender m spacer (pyRender m spacer h).2).1 = (pyRender m spacer h).1 ∧
    m.columnsOf (pyRender m spacer h).2 = m.columnsOf h := by
  have hwf' := pyModel_wf_refs m h hwf
  obtain ⟨e, he⟩ := columnsAllocFrom_heap_mono m.headings m.align m.data h 0
  have hh2 : (pyRender m spacer h).2 = h ++ e := he
  have hcols : (columnsAllocFrom m.headings m.align m.data 0 (pyRender m spacer h).2).1
      = (columnsAllocFrom m.headings m.align m.data 0 h).1 := by
    rw [hh2]
    exact columnsAllocFrom_heap_extend m.headings m.align m.data h e 0 hwf'
  constructor
  · show (if (columnsAllocFrom m.headings m.align m.data 0
        (pyRender m spacer h).2).1.isEmpty then ""
      else String.intercalate "\n" (screenLines (columnsAllocFrom m.headings m.align
        m.data 0 (pyRender m spacer h).2).1 spacer)) = _
    rw [hcols]
    rfl
  · simp only [PyModel.columnsOf]
    exact hcols

theorem render_idempotent_witness :
    (pyRender (PyModel.mk [PyColVal.ref 0, PyColVal.raw ["1", "2"]] none none) "  "
        (pyRender (PyModel.mk [PyColVal.ref 0, PyColVal.raw ["1", "2"]] none none) "  "
          [Column.mk ["a"] none none none]).2).1
      = (pyRender (PyModel.mk [PyColVal.ref 0, PyColVal.raw ["1", "2"]] none none) "  "
          [Column.mk ["a"] none none none]).1 :=
  (render_idempotent [Column.mk ["a"] none none none]
    (PyModel.mk [PyColVal.ref 0, PyColVal.raw ["1", "2"]] none none) "  "
    (by decide)).1

lemma shrinkPass_length : ∀ (ws : List Nat) (ov : Nat),
    (shrinkPass ws ov).1.length = ws.length := by
  intro ws
  induction ws with
  | nil => intro ov; rfl
  | cons w rest ih =>
    intro ov
    simp only [shrinkPass, List.length_cons]
    rw [ih]

lemma shrinkPass_singleton (w ov : Nat) :
    (shrinkPass [w] ov).1 = [w - (if 1 < w then min ov (w - 1) else 0)] := rfl

lemma shrinkPass_cons_cons (w w2 : Nat) (rest : List Nat) (ov : Nat) :
    (shrinkPass (w :: w2 :: rest) ov).1 =
      (w - (if w2 < w then min ov (w - w2) else 0)) ::
        (shrinkPass (w2 :: rest) (ov - (if w2 < w then min ov (w - w2) else 0))).1 := rfl

lemma shrinkPass_ge_one : ∀ (ws : List Nat) (ov : Nat), (∀ w ∈ ws, 1 ≤ w) →
    ∀ w ∈ (shrinkPass ws ov).1, 1 ≤ w := by
  intro ws
  induction ws with
  | nil => intro ov _ w hw; simp [shrinkPass] at hw
  | cons w rest ih =>
    intro ov hge u hu
    have hw : 1 ≤ w := hge w (by simp)
    have hrest : ∀ v ∈ rest, 1 ≤ v := fun v hv => hge v (by simp [hv])
    cases rest with
    | nil =>
      rw [shrinkPass_singleton] at hu
      simp only [List.mem_singleton] at hu
      subst hu
      by_cases h1 : 1 < w
      · rw [if_pos h1]; omega
      · rw [if_neg h1]; omega
    | cons w2 rest2 =>
      rw [shrinkPass_cons_cons] at hu
      rcases List.mem_cons.mp hu with h | h
      · subst h
        have h2 : 1 ≤ w2 := hrest w2 (by simp)
        by_cases hlt : w2 < w
        · rw [if_pos hlt]; omega
        · rw [if_neg hlt]; omega
      · exact ih _ hrest u h

lemma shrinkPass_sum_le : ∀ (ws : List Nat) (ov : Nat),
    (shrinkPass ws ov).1.sum ≤ ws.sum := by
  intro ws
  induction ws with
  | nil => intro ov; simp [shrinkPass]
  | cons w rest ih =>
    intro ov
    cases rest with
    | nil =>
      rw [shrinkPass_singleton]
      simp only [List.sum_cons, List.sum_nil]
      omega
    | cons w2 rest2 =>
      rw [shrinkPass_cons_cons]
      simp only [List.sum_cons]
      have h := ih (ov - (if w2 < w then min ov (w - w2) else 0))
      simp only [List.sum_cons] at h
      omega

lemma shrinkPass_sum_lt : ∀ (ws : List Nat) (ov : Nat), 0 < ov →
    (∀ w ∈ ws, 1 ≤ w) → (∃ w ∈ ws, 1 < w) →
    (shrinkPass ws ov).1.sum < ws.sum := by
  intro ws
  induction ws with
  | nil => rintro ov _ _ ⟨w, hw, -⟩; simp at hw
  | cons w rest ih =>
    rintro ov hov hge ⟨u, hu, hugt⟩
    have hrest : ∀ v ∈ rest, 1 ≤ v := fun v hv => hge v (by simp [hv])
    cases rest with
    | nil =>
      have hu2 : u = w := by simpa using hu
      subst hu2
      rw [shrinkPass_singleton, if_pos hugt]
      simp only [List.sum_cons, List.sum_nil]
      omega
    | cons w2 rest2 =>
      rw [shrinkPass_cons_cons]
      simp only [List.sum_cons]
      by_cases hlt : w2 < w
      · rw [if_pos hlt]
        have h2 : 1 ≤ w2 := hrest w2 (by simp)
        have hle := shrinkPass_sum_le (w2 :: rest2) (ov - min ov (w - w2))
        simp only [List.sum_cons] at hle
        omega
      · rw [if_neg hlt]
        simp only [Nat.sub_zero]
        have hex : ∃ v ∈ w2 :: rest2, 1 < v := by
          rcases List.mem_cons.mp hu with h | h
          · subst h
            exact ⟨w2, by simp, by omega⟩
          · exact ⟨u, h, hugt⟩
        have h := ih ov hov hrest hex
        simp only [List.sum_cons] at h
        omega

lemma sum_le_length_of_all_le_one (l : List Nat) (h : ∀ w ∈ l, w ≤ 1) :
    l.sum ≤ l.length := by
  induction l with
  | nil => simp
  | cons x xs ih =>
    simp only [List.sum_cons, List.length_cons]
    have hx := h x (by simp)
    have := ih (fun y hy => h y (by simp [hy]))
    omega

lemma shrinkLoop_spec (target s : Nat) : ∀ (fuel : Nat) (ws : List Nat),
    ws.sum ≤ fuel → (∀ w ∈ ws, 1 ≤ w) →
    (∀ w ∈ shrinkLoop target s fuel ws, 1 ≤ w) ∧
    (shrinkLoop target s fuel ws).length = ws.length ∧
    (total_width (shrinkLoop target s fuel ws) s ≤ target ∨
      ∀ w ∈ shrinkLoop target s fuel ws, w ≤ 1) := by
  intro fuel
  induction fuel with
  | zero =>
    intro ws hsum hge
    have hnil : ws = [] := by
      cases ws with
      | nil => rfl
      | cons w rest =>
        have := hge w (by simp)
        simp only [List.sum_cons] at hsum
        omega
    subst hnil
    refine ⟨by simp [shrinkLoop], rfl, Or.inl ?_⟩
    simp [shrinkLoop, total_width]
  | succ fuel ih =>
    intro ws hsum hge
    simp only [shrinkLoop]
    split
    · exact ⟨hge, rfl, Or.inl (by assumption)⟩
    · split
      · rename_i hfit hall
        refine ⟨hge, rfl, Or.inr ?_⟩
        intro w hw
        simpa using List.all_eq_true.mp hall w hw
      · rename_i hfit hall
        have hov : 0 < total_width ws s - target := by omega
        have hex : ∃ w ∈ ws, 1 < w := by
          have hne : ¬ ∀ w ∈ ws, w ≤ 1 := by
            intro hc
            exact hall (List.all_eq_true.mpr (fun w hw => by simpa using hc w hw))
          push_neg at hne
          obtain ⟨w, hw, hgt⟩ := hne
          exact ⟨w, hw, by omega⟩
        have hlt := shrinkPass_sum_lt ws (total_width ws s - target) hov hge hex
        have hge' := shrinkPass_ge_one ws (total_width ws s - target) hge
        obtain ⟨h1, h2, h3⟩ := ih (shrinkPass ws (total_width ws s - target)).1
          (by omega) hge'
        exact ⟨h1, by rw [h2, shrinkPass_length], h3⟩

/-- C4 (spec-modelled): for any width profile of columns that are at least one
character wide and any target of at least the all-ones rendered width (the
column count plus the interspersed spacers), `shrink_to_width` never takes a
column below width 1 and lands at a total rendered width within the target. -/
theorem shrink_to_width_spec (ws : List Nat) (target s : Nat)
    (hge : ∀ w ∈ ws, 1 ≤ w)
    (htarget : ws.length + (ws.length - 1) * s ≤ target) :
    (∀ w ∈ shrink_to_width ws target s, 1 ≤ w) ∧
    total_width (shrink_to_width ws target s) s ≤ target := by
  obtain ⟨h1, hlen, h2⟩ := shrinkLoop_spec target s ws.sum ws le_rfl hge
  rw [shrink_to_width]
  refine ⟨h1, ?_⟩
  rcases h2 with h2 | h2
  · exact h2
  · have hsum := sum_le_length_of_all_le_one _ h2
    rw [total_width, hlen]
    rw [hlen] at hsum
    omega

theorem shrink_to_width_spec_witness :
    (∀ w ∈ shrink_to_width [5, 3, 4] 8 2, 1 ≤ w) ∧
    total_width (shrink_to_width [5, 3, 4] 8 2) 2 ≤ 8 :=
  shrink_to_width_spec [5, 3, 4] 8 2 (by decide) (by decide)

end Simplecol
